import Mathlib

/-!
# Verification of the `iocinfo` documentation generator

A shallow embedding of `src/iocinfo.py`, a batch generator that turns
per-device log snapshots and a declarative YAML configuration into static
markdown pages.  Text is modelled as `List Char` (for the parsing layers)
and `String` (for page assembly); YAML data is modelled by the inductive
`Value`; fallible Python code (attribute/key/type errors) is modelled with
`Option`.

Whitespace is modelled at the ASCII level (the inputs the tool consumes are
ASCII log files): `pyIsSpace` covers the six ASCII characters matched by
Python's `str.strip` and the regex class `\s`.
-/

namespace IocInfo

/-- The ASCII whitespace characters recognised by Python's `str.strip` and
by the regex character class `\s`. -/
def pyIsSpace (c : Char) : Bool :=
  c = ' ' || c = '\t' || c = '\n' || c = '\r' || c = '\x0b' || c = '\x0c'

/-- Remove a trailing run of whitespace characters (Python `str.rstrip`). -/
def dropTrailingWs : List Char → List Char
  | [] => []
  | c :: cs =>
    let r := dropTrailingWs cs
    if r.isEmpty && pyIsSpace c then [] else c :: r

/-- Python `str.strip`: drop leading and trailing whitespace. -/
def pyStrip (l : List Char) : List Char :=
  dropTrailingWs (l.dropWhile pyIsSpace)

/-- Helper for `splitLinesCL`: returns the first line and the remaining
lines of a text split at `'\n'`. -/
def splitLinesP : List Char → List Char × List (List Char)
  | [] => ([], [])
  | c :: cs =>
    let r := splitLinesP cs
    if c = '\n' then ([], r.1 :: r.2) else (c :: r.1, r.2)

/-- Python `str.split('\n')`: the list of lines of a text.  Always
non-empty; `""` yields `[""]`, and a trailing newline yields a final empty
line, exactly as in Python. -/
def splitLinesCL (l : List Char) : List (List Char) :=
  (splitLinesP l).1 :: (splitLinesP l).2

/-- Association-list lookup (model of Python `dict` access; first match,
and the embedding keeps keys unique exactly as Python dicts do). -/
def alookup {α β : Type} [DecidableEq α] : List (α × β) → α → Option β
  | [], _ => none
  | (k, v) :: rest, key => if k = key then some v else alookup rest key

/-- Association-list insertion with Python `dict` assignment semantics:
an existing binding of the key is overwritten in place, otherwise the
binding is appended at the end. -/
def dictInsert {α β : Type} [DecidableEq α] :
    List (α × β) → α → β → List (α × β)
  | [], k, v => [(k, v)]
  | (k', v') :: rest, k, v =>
    if k' = k then (k, v) :: rest else (k', v') :: dictInsert rest k v

/-- Python `line.split(':', 1)` guarded by `':' in line`: `some (k, v)`
splits the line at its first colon, `none` means the line has no colon. -/
def splitFirstColon : List Char → Option (List Char × List Char)
  | [] => none
  | c :: cs =>
    if c = ':' then some ([], cs)
    else
      match splitFirstColon cs with
      | some (k, v) => some (c :: k, v)
      | none => none

/-- One iteration of the metadata loop of `extract_ioc_metadata`
(src/iocinfo.py lines 12-15): a line with a colon contributes the binding
`strip(key) ↦ strip(value)`, any other line contributes nothing. -/
def extractStep (m : List (List Char × List Char)) (line : List Char) :
    List (List Char × List Char) :=
  match splitFirstColon line with
  | some (k, v) => dictInsert m (pyStrip k) (pyStrip v)
  | none => m

/-- `extract_ioc_metadata` (src/iocinfo.py lines 7-16) applied to the text
of an existing `start.log` file: fold `extractStep` over the lines. -/
def extract_ioc_metadata (content : List Char) : List (List Char × List Char) :=
  (splitLinesCL content).foldl extractStep []

/-- The key a log line would contribute to the metadata, if any. -/
def lineKey (line : List Char) : Option (List Char) :=
  (splitFirstColon line).map (fun p => pyStrip p.1)

/-- `pv_count` (src/iocinfo.py line 123): strip the whole file, split it
into lines, and count the lines whose own strip is non-empty. -/
def pvCountOf (content : List Char) : Nat :=
  ((splitLinesCL (pyStrip content)).filter
    (fun l => !(pyStrip l).isEmpty)).length

/-- A line is non-blank when it contains at least one non-whitespace
character (the spec's notion used to state the PV-count property). -/
def lineNonblank (l : List Char) : Bool :=
  l.any (fun c => !pyIsSpace c)

/-- The number of non-blank lines of a text (the spec's counting rule). -/
def countNB (l : List Char) : Nat :=
  (splitLinesCL l).countP (fun s => lineNonblank s)

/-! ## URL linkification (`make_urls_clickable`, src/iocinfo.py lines 18-21)

The regex `(https?://[^\s]+)` is embedded directly: a match is the scheme
`http://` or `https://` (the optional `s` tried greedily, as in the regex
engine) followed by a maximal non-empty run of non-whitespace characters.
`re.sub` scans left to right and replaces leftmost non-overlapping matches,
which the fuel-driven scanner below reproduces. -/

/-- The characters of the scheme `http://`. -/
def http7 : List Char := ['h', 't', 't', 'p', ':', '/', '/']

/-- The characters of the scheme `https://`. -/
def https8 : List Char := ['h', 't', 't', 'p', 's', ':', '/', '/']

/-- Match `https?://` at the head of the text: the longer alternative is
tried first, as the greedy `s?` does. -/
def matchScheme (l : List Char) : Option (List Char × List Char) :=
  if https8.isPrefixOf l then some (https8, l.drop 8)
  else if http7.isPrefixOf l then some (http7, l.drop 7)
  else none

/-- Match the whole pattern `https?://[^\s]+` at the head of the text,
returning the matched characters and the rest of the text. -/
def tryMatchUrl (l : List Char) : Option (List Char × List Char) :=
  match matchScheme l with
  | none => none
  | some (sch, rest) =>
    let body := rest.takeWhile (fun c => !pyIsSpace c)
    if body.isEmpty then none
    else some (sch ++ body, rest.dropWhile (fun c => !pyIsSpace c))

/-- Fuelled left-to-right scan of `re.sub`: at each position, if the
pattern matches, emit `[match](match)` and continue after the match,
otherwise copy one character.  The fuel only serves termination; it is
always sufficient at the value chosen by `make_urls_clickable`. -/
def mkUrlsAux : Nat → List Char → List Char
  | 0, l => l
  | _ + 1, [] => []
  | fuel + 1, c :: cs =>
    match tryMatchUrl (c :: cs) with
    | some (m, rest) =>
      '[' :: m ++ ']' :: '(' :: m ++ ')' :: mkUrlsAux fuel rest
    | none => c :: mkUrlsAux fuel cs

/-- `make_urls_clickable` (src/iocinfo.py lines 18-21):
`re.sub(r'(https?://[^\s]+)', r'[\1](\1)', text)`. -/
def make_urls_clickable (l : List Char) : List Char :=
  mkUrlsAux (l.length + 1) l

/-- The text has no occurrence of `http://` or `https://`; positions where
the regex scan could start a match are exactly the suffixes on which
`matchScheme` succeeds. -/
def schemeFreeP (l : List Char) : Prop :=
  ∀ t, t <:+ l → matchScheme t = none

/-- The shape of a maximal regex match: a scheme followed by a non-empty
run of characters, all of it non-whitespace. -/
def urlShaped (u : List Char) : Prop :=
  (∀ c ∈ u, pyIsSpace c = false) ∧
    ((https8 <+: u ∧ 8 < u.length) ∨ (http7 <+: u ∧ 7 < u.length))

/-- The text either is empty or starts with a whitespace character, so a
greedy match ending just before it is maximal. -/
def headSpace (l : List Char) : Prop :=
  ∀ c, l.head? = some c → pyIsSpace c = true

/-! ## The YAML data model

`yaml.safe_load` produces nested dictionaries, lists and scalars.  `Value`
embeds them (floats are omitted: the configuration schema consumed by the
tool uses none).  Mappings are association lists with unique keys, in
insertion order, as Python dicts are. -/

/-- A YAML/Python value. -/
inductive Value where
  | null : Value
  | bool (b : Bool) : Value
  | int (n : Int) : Value
  | str (s : String) : Value
  | list (xs : List Value) : Value
  | dict (kvs : List (String × Value)) : Value

/-- Python truthiness of a value (`bool(x)`). -/
def Value.truthy : Value → Bool
  | .null => false
  | .bool b => b
  | .int n => decide (n ≠ 0)
  | .str s => !s.isEmpty
  | .list xs => !xs.isEmpty
  | .dict kvs => !kvs.isEmpty

mutual

/-- Python `repr` of a value, simplified inside containers: strings are
single-quoted without escaping (the configurations the claims quantify
over never reach those cases with quotes or escapes). -/
def reprV : Value → String
  | .null => "None"
  | .bool true => "True"
  | .bool false => "False"
  | .int n => toString n
  | .str s => "'" ++ s ++ "'"
  | .list xs => "[" ++ String.intercalate ", " (reprVs xs) ++ "]"
  | .dict kvs => "\x7b" ++ String.intercalate ", " (reprKVs kvs) ++ "\x7d"

/-- `repr` of the elements of a list value. -/
def reprVs : List Value → List String
  | [] => []
  | v :: vs => reprV v :: reprVs vs

/-- `repr` of the entries of a dict value. -/
def reprKVs : List (String × Value) → List String
  | [] => []
  | (k, v) :: kvs => ("'" ++ k ++ "': " ++ reprV v) :: reprKVs kvs

end

/-- Python `str(x)`, as applied by an f-string: the identity on strings,
`repr`-like on everything else. -/
def pystr : Value → String
  | .str s => s
  | v => reprV v

/-- `x` viewed as a dict; `none` models the `AttributeError` raised when a
dict method is called on a non-dict. -/
def asDict : Value → Option (List (String × Value))
  | .dict kvs => some kvs
  | _ => none

/-- Python `d.get(k, default)`. -/
def pyGet (d : List (String × Value)) (k : String) (dflt : Value) : Value :=
  (alookup d k).getD dflt

/-- Python `k in d`. -/
def containsKey (d : List (String × Value)) (k : String) : Bool :=
  (alookup d k).isSome

/-- Python `v == s` for a string `s`: equal strings compare equal, any
non-string value compares unequal to a string. -/
def pyEqStr (v : Value) (s : String) : Bool :=
  match v with
  | .str t => t = s
  | _ => false

/-! ## The Configuration Loader (`load_ioc_list`, `load_services_with_ingress`) -/

/-- `values.get('epicsConfiguration', {}).get('iocs', [])` followed by the
comprehension `[ioc['name'] for ioc in iocs_data]` (src/iocinfo.py lines
23-27 and 70).  `none` models the run aborting: a non-dict where a dict is
required, a non-list `iocs` value, or an entry without a `name` key. -/
def allowedIocNames (values : List (String × Value)) : Option (List Value) := do
  let epicsCfg ← asDict (pyGet values "epicsConfiguration" (Value.dict []))
  match pyGet epicsCfg "iocs" (Value.list []) with
  | .list xs =>
    xs.mapM (fun ioc => do
      let d ← asDict ioc
      alookup d "name")
  | _ => none

/-- `service_config.get('enable_ingress') or
service_config.get('ingress', {}).get('enabled')` (src/iocinfo.py lines 41
and 220), with Python's left-to-right short-circuit: when `enable_ingress`
is truthy the `ingress` value is never touched, otherwise it must be a
dict (or be absent, defaulting to `{}`). -/
def svcHasIngress (cfg : List (String × Value)) : Option Bool :=
  if (pyGet cfg "enable_ingress" Value.null).truthy then some true
  else do
    let ingr ← asDict (pyGet cfg "ingress" (Value.dict []))
    some (pyGet ingr "enabled" Value.null).truthy

/-- The full qualification test of src/iocinfo.py line 41:
`... or 'loadbalancer' in service_config`. -/
def svcQualifies (cfg : List (String × Value)) : Option Bool := do
  let hi ← svcHasIngress cfg
  some (hi || containsKey cfg "loadbalancer")

/-- The URL computation of src/iocinfo.py lines 43-52.  `none` models the
`TypeError` of `url += service_config['path']` when `path` is not a
string. -/
def svcUrl (values : List (String × Value)) (name : String)
    (cfg : List (String × Value)) : Option String :=
  let base :=
    if containsKey cfg "loadbalancer" then
      "http://" ++ pystr (pyGet cfg "loadbalancer" Value.null)
    else
      "http://" ++ pystr (pyGet values "beamline" (Value.str "")) ++ "-" ++
        name ++ "." ++ pystr (pyGet values "epik8namespace" (Value.str ""))
  if containsKey cfg "path" then
    match alookup cfg "path" with
    | some (.str p) => some (base ++ p)
    | _ => none
  else some base

/-- One record of the list built by `load_services_with_ingress`
(src/iocinfo.py lines 54-58). -/
structure ServiceEntry where
  name : String
  config : List (String × Value)
  url : String

/-- The loop of src/iocinfo.py lines 39-58 over `epics_services.items()`:
qualifying services are annotated with their URL; a crash anywhere aborts
the whole load (`none`). -/
def processServices (values : List (String × Value)) :
    List (String × Value) → Option (List ServiceEntry)
  | [] => some []
  | (name, cfgV) :: rest => do
    let cfg ← asDict cfgV
    let q ← svcQualifies cfg
    if q then
      let url ← svcUrl values name cfg
      let restEntries ← processServices values rest
      some ({ name := name, config := cfg, url := url } :: restEntries)
    else
      processServices values rest

/-- `load_services_with_ingress` (src/iocinfo.py lines 29-60), taking the
already-parsed top-level mapping of `values.yaml`. -/
def load_services_with_ingress (values : List (String × Value)) :
    Option (List ServiceEntry) := do
  let epicsCfg ← asDict (pyGet values "epicsConfiguration" (Value.dict []))
  let svcs ← asDict (pyGet epicsCfg "services" (Value.dict []))
  processServices values svcs

/-! ## The Service-Page Generator (src/iocinfo.py lines 210-254) -/

/-- `service_config.get('desc', 'This is an EPICS service with ingress
enabled.')` as rendered by the f-string (src/iocinfo.py line 217). -/
def serviceDesc (cfg : List (String × Value)) : String :=
  pystr (pyGet cfg "desc"
    (Value.str "This is an EPICS service with ingress enabled."))

/-- The connection-info block of src/iocinfo.py lines 219-231: a plain
connection-IP line for a load-balancer-only service, otherwise a
"Service URL" heading with a markdown link. -/
def serviceConnectionInfo (cfg : List (String × Value)) (url : String) :
    Option String := do
  let hasIngress ← svcHasIngress cfg
  if containsKey cfg "loadbalancer" && !hasIngress then
    some ("**Connection IP:** " ++ pystr (pyGet cfg "loadbalancer" Value.null))
  else
    some ("## Service URL\n\n[" ++ url ++ "](" ++ url ++ ")")

/-- The service markdown document of src/iocinfo.py lines 233-246; the
generation timestamp is passed in as `date`. -/
def servicePage (date name desc connInfo : String) : String :=
  "---\ntitle: \"" ++ name ++ "\"\nlinkTitle: \"" ++ name ++
    "\"\nweight: 10\ntype: docs\ndate: \"" ++ date ++ "\"\n---\n\n" ++
    connInfo ++ "\n\n## Description\n\n" ++ desc ++ "\n"

/-- The service loop of `main` (src/iocinfo.py lines 211-254) as the list
of `(file name, file content)` pairs it writes into the services
directory. -/
def servicePages (values : List (String × Value)) (date : String) :
    Option (List (String × String)) := do
  let svcs ← load_services_with_ingress values
  svcs.mapM (fun e => do
    let ci ← serviceConnectionInfo e.config e.url
    some (e.name ++ ".md", servicePage date e.name (serviceDesc e.config) ci))

/-! ## The Device-Page Generator (src/iocinfo.py lines 85-208) -/

/-- The files of one device directory that the generator reads.  `none`
means the file is absent; `yamlFile` is the content of
`yaml_files[0]`, the first `.yaml` file in listing order, if any. -/
structure DeviceDir where
  startLog : Option String
  yamlFile : Option String
  stcmd : Option String
  pvlist : Option String

/-- The metadata of a device: `extract_ioc_metadata` applied to
`start.log`, or empty when the file is missing (src/iocinfo.py line 10). -/
def devMetadata (d : DeviceDir) : List (List Char × List Char) :=
  match d.startLog with
  | some c => extract_ioc_metadata c.toList
  | none => []

/-- `metadata.get('IOC Device Group', 'other')` (src/iocinfo.py line 91). -/
def devGroup (d : DeviceDir) : String :=
  ((alookup (devMetadata d) "IOC Device Group".toList).getD
    "other".toList).asString

/-- `metadata.get('IOC Asset', '')` (src/iocinfo.py line 92). -/
def iocAsset (d : DeviceDir) : String :=
  ((alookup (devMetadata d) "IOC Asset".toList).getD []).asString

/-- `start_log_content` (src/iocinfo.py lines 95-98): the linkified log
text, empty when the file is missing. -/
def startLogContent (d : DeviceDir) : String :=
  match d.startLog with
  | some c => (make_urls_clickable c.toList).asString
  | none => ""

/-- `yaml_content` (src/iocinfo.py lines 102-107). -/
def yamlContent (d : DeviceDir) : String := d.yamlFile.getD ""

/-- `stcmd_content` (src/iocinfo.py lines 110-114). -/
def stcmdContent (d : DeviceDir) : String := d.stcmd.getD ""

/-- `pvlist_content` (src/iocinfo.py lines 117-122). -/
def pvlistContent (d : DeviceDir) : String := d.pvlist.getD ""

/-- `pv_count` (src/iocinfo.py lines 118-123): 0 when the file is
missing. -/
def pvCount (d : DeviceDir) : Nat :=
  match d.pvlist with
  | some c => pvCountOf c.toList
  | none => 0

/-- `nav_links` (src/iocinfo.py lines 134-143), in source order. -/
def navLinks (d : DeviceDir) : List String :=
  (if iocAsset d = "" then []
   else ["- [IOC Asset Documentation](" ++ iocAsset d ++ ")"]) ++
  ["- [Start Log](#startlog)"] ++
  (if yamlContent d = "" then [] else ["- [Configuration (YAML)](#yaml)"]) ++
  (if stcmdContent d = "" then [] else ["- [EPICS st.cmd](#stcmd)"]) ++
  (if pvlistContent d = "" then []
   else ["- [Process Variables (" ++ toString (pvCount d) ++ ")](#pvlist)"])

/-- `yaml_section` (src/iocinfo.py lines 145-153). -/
def yamlSection (d : DeviceDir) : String :=
  if yamlContent d = "" then ""
  else "\n## Configuration (YAML) \x7b#yaml\x7d\n\n```yaml\n" ++
    yamlContent d ++ "\n```\n"

/-- `stcmd_section` (src/iocinfo.py lines 155-163). -/
def stcmdSection (d : DeviceDir) : String :=
  if stcmdContent d = "" then ""
  else "\n## EPICS st.cmd \x7b#stcmd\x7d\n\n```bash\n" ++
    stcmdContent d ++ "\n```\n"

/-- `pvlist_section` (src/iocinfo.py lines 165-173). -/
def pvlistSection (d : DeviceDir) : String :=
  if pvlistContent d = "" then ""
  else "\n## Process Variables (" ++ toString (pvCount d) ++
    ") \x7b#pvlist\x7d\n\n```text\n" ++ pvlistContent d ++ "\n```\n"

/-- `desc_section` (src/iocinfo.py lines 175-182); `iocDesc` is the
already-rendered description looked up in the configuration. -/
def descSection (iocDesc : String) : String :=
  if iocDesc = "" then ""
  else "\n## Description\n\n" ++ iocDesc ++ "\n\n"

/-- `md_content` (src/iocinfo.py lines 184-202): the full device page;
the generation timestamp is passed in as `date`.  The Start Log heading is
kept as its own concatenation atom (the surrounding text is unchanged). -/
def deviceMd (d : DeviceDir) (iocName date iocDesc : String) : String :=
  "---\ntitle: \"" ++ iocName ++ "\"\nlinkTitle: \"" ++ iocName ++
    "\"\nweight: 10\ndevgroup: \"" ++ devGroup d ++ "\"\ndate: \"" ++ date ++
    "\"\n---\n\n## Quick Navigation\n\n" ++
    String.intercalate "\n" (navLinks d) ++
    "\n\n" ++ "## Start Log \x7b#startlog\x7d" ++ "\n\n```\n" ++
    startLogContent d ++
    "\n```\n" ++ descSection iocDesc ++ yamlSection d ++ stcmdSection d ++
    pvlistSection d ++ "\n"

/-! ## Device-directory filtering in `main` (src/iocinfo.py lines 65-83) -/

/-- The filtering of src/iocinfo.py lines 81-82: `allowed = none` models a
run without `--values-file` (`allowed_iocs is None`); with a configuration,
`if allowed_iocs:` is Python truthiness, so an *empty* allow-list disables
filtering; `ioc in allowed_iocs` compares the directory name against the
raw `name` values with Python `==`. -/
def processedDirs (iocDirs : List String) (allowed : Option (List Value)) :
    List String :=
  match allowed with
  | none => iocDirs
  | some names =>
    if names.isEmpty then iocDirs
    else iocDirs.filter (fun d => names.any (fun v => pyEqStr v d))

/-- The device output files of one run: `main` writes
`<control_dir>/<ioc_name>.md` for exactly the processed directories
(src/iocinfo.py lines 126 and 204-205). -/
def deviceOutputFiles (iocDirs : List String) (allowed : Option (List Value)) :
    List String :=
  (processedDirs iocDirs allowed).map (fun n => n ++ ".md")

/-! ## Claim-side definitions (stated from the specification's words, to be
compared with the source-side functions above) -/

/-- The URL rule as the specification states it: `http://` plus the
load-balancer address when one is present, otherwise
`http://<beamline>-<name>.<namespace>` from the top-level fields (empty
string when absent); a `path` field is appended verbatim. -/
def urlClaimC1 (values : List (String × Value)) (name : String)
    (cfg : List (String × Value)) : String :=
  let base :=
    if containsKey cfg "loadbalancer" then
      "http://" ++ pystr (pyGet cfg "loadbalancer" Value.null)
    else
      "http://" ++ pystr (pyGet values "beamline" (Value.str "")) ++ "-" ++
        name ++ "." ++ pystr (pyGet values "epik8namespace" (Value.str ""))
  match alookup cfg "path" with
  | some (.str p) => base ++ p
  | _ => base

/-- The qualification rule as the specification states it: a truthy
`enable_ingress` flag, or a nested `ingress` object with a truthy
`enabled` flag, or a `loadbalancer` key present. -/
def qualifiesClaimC2 (cfgV : Value) : Bool :=
  match cfgV with
  | .dict cfg =>
    (pyGet cfg "enable_ingress" Value.null).truthy ||
      (match alookup cfg "ingress" with
       | some (.dict ingr) => (pyGet ingr "enabled" Value.null).truthy
       | _ => false) ||
      containsKey cfg "loadbalancer"
  | _ => false

/-! ## Concrete configurations used by the witnesses -/

/-- The service record of the specification's worked example: ingress
enabled, a `path`, no load balancer. -/
def exSvcCfg : List (String × Value) :=
  [("ingress", Value.dict [("enabled", Value.bool true)]),
   ("path", Value.str "/ui")]

/-- A load-balancer-only service record. -/
def exLbCfg : List (String × Value) :=
  [("loadbalancer", Value.str "10.0.0.5")]

/-- A service record that qualifies under no rule. -/
def exOffCfg : List (String × Value) :=
  [("image", Value.str "x")]

/-- The service map of the worked example. -/
def exSvcMap : List (String × Value) :=
  [("svc", Value.dict exSvcCfg), ("lbsvc", Value.dict exLbCfg),
   ("nosvc", Value.dict exOffCfg)]

/-- The top-level configuration of the specification's worked example. -/
def exValues : List (String × Value) :=
  [("beamline", Value.str "b1"), ("epik8namespace", Value.str "ns"),
   ("epicsConfiguration", Value.dict [("services", Value.dict exSvcMap)])]

/-- The service entries `load_services_with_ingress` produces from
`exValues`. -/
def exEntries : List ServiceEntry :=
  [{ name := "svc", config := exSvcCfg, url := "http://b1-svc.ns/ui" },
   { name := "lbsvc", config := exLbCfg, url := "http://10.0.0.5" }]

/-- The service pages written for `exValues` at timestamp `D`. -/
def exPages : List (String × String) :=
  (servicePages exValues "D").getD []

/-! ## Association-list and line-parsing lemmas -/

/-- Insertion binds the inserted key to the inserted value. -/
theorem alookup_dictInsert_self {α β : Type} [DecidableEq α]
    (m : List (α × β)) (k : α) (v : β) :
    alookup (dictInsert m k v) k = some v := by
  induction m with
  | nil => simp [dictInsert, alookup]
  | cons p rest ih =>
    obtain ⟨k', v'⟩ := p
    by_cases h : k' = k
    · simp [dictInsert, h, alookup]
    · simp [dictInsert, h, alookup, ih]

/-- Insertion leaves the binding of every other key unchanged. -/
theorem alookup_dictInsert_ne {α β : Type} [DecidableEq α]
    (m : List (α × β)) (k key : α) (v : β) (h : key ≠ k) :
    alookup (dictInsert m k v) key = alookup m key := by
  induction m with
  | nil =>
    have h1 : ¬ k = key := fun hh => h hh.symm
    simp [dictInsert, alookup, h1]
  | cons p rest ih =>
    obtain ⟨k', v'⟩ := p
    by_cases hk : k' = k
    · subst hk
      have h1 : ¬ k' = key := fun hh => h hh.symm
      simp [dictInsert, alookup, h1]
    · simp [dictInsert, hk, alookup, ih]

/-- A colon-free key followed by a colon splits back into key and value. -/
theorem splitFirstColon_append (k v : List Char) (h : ':' ∉ k) :
    splitFirstColon (k ++ ':' :: v) = some (k, v) := by
  induction k with
  | nil => simp [splitFirstColon]
  | cons c cs ih =>
    have hc : c ≠ ':' := fun hh => h (hh ▸ List.mem_cons_self c cs)
    have hcs : ':' ∉ cs := fun hh => h (List.mem_cons_of_mem c hh)
    simp [splitFirstColon, hc, ih hcs]

/-- A line without a colon does not split. -/
theorem splitFirstColon_eq_none (l : List Char) (h : ':' ∉ l) :
    splitFirstColon l = none := by
  induction l with
  | nil => simp [splitFirstColon]
  | cons c cs ih =>
    have hc : c ≠ ':' := fun hh => h (hh ▸ List.mem_cons_self c cs)
    have hcs : ':' ∉ cs := fun hh => h (List.mem_cons_of_mem c hh)
    simp [splitFirstColon, hc, ih hcs]

/-- A successful split decomposes the line at its first colon: the key is
the colon-free part before it. -/
theorem splitFirstColon_eq_some (l k v : List Char)
    (h : splitFirstColon l = some (k, v)) :
    l = k ++ ':' :: v ∧ ':' ∉ k := by
  induction l generalizing k with
  | nil => simp [splitFirstColon] at h
  | cons c cs ih =>
    by_cases hc : c = ':'
    · subst hc
      simp [splitFirstColon] at h
      obtain ⟨rfl, rfl⟩ := h
      simp
    · simp only [splitFirstColon, if_neg hc] at h
      match hcs : splitFirstColon cs with
      | none => rw [hcs] at h; simp at h
      | some (k₀, v₀) =>
        rw [hcs] at h
        simp at h
        obtain ⟨rfl, rfl⟩ := h
        obtain ⟨hdec, hmem⟩ := ih k₀ hcs
        constructor
        · simp [hdec]
        · intro hmem'
          rcases List.mem_cons.mp hmem' with h1 | h1
          · exact hc h1.symm
          · exact hmem h1

/-- A line whose key differs from `key` cannot change the binding of
`key` in one metadata step. -/
theorem alookup_extractStep_ne (m : List (List Char × List Char))
    (line key : List Char) (h : lineKey line ≠ some key) :
    alookup (extractStep m line) key = alookup m key := by
  unfold extractStep
  match hs : splitFirstColon line with
  | none => rfl
  | some (k, v) =>
    have hk : pyStrip k ≠ key := by
      intro hh
      exact h (by simp [lineKey, hs, hh])
    exact alookup_dictInsert_ne m (pyStrip k) key (pyStrip v) (Ne.symm hk)

/-- Lines whose keys all differ from `key` leave the binding of `key`
unchanged across the whole metadata fold. -/
theorem alookup_foldl_extractStep (post : List (List Char))
    (m : List (List Char × List Char)) (key : List Char)
    (h : ∀ l ∈ post, lineKey l ≠ some key) :
    alookup (post.foldl extractStep m) key = alookup m key := by
  induction post generalizing m with
  | nil => rfl
  | cons l rest ih =>
    rw [List.foldl_cons, ih _ (fun x hx => h x (List.mem_cons_of_mem l hx)),
      alookup_extractStep_ne m l key (h l (List.mem_cons_self l rest))]

/-- C5: metadata parsing splits each colon-containing line at its first
colon into a stripped key and a stripped value — so a line `K: V`
contributes the binding `K ↦ V` — and a line containing no colon
contributes nothing to the metadata fold. -/
theorem claim_C5 :
    (∀ line k v, splitFirstColon line = some (k, v) ↔
      line = k ++ ':' :: v ∧ ':' ∉ k) ∧
    (∀ m k v, ':' ∉ k →
      alookup (extractStep m (k ++ ':' :: v)) (pyStrip k) = some (pyStrip v)) ∧
    (∀ (pre post : List (List Char)) (m : List (List Char × List Char))
      (l : List Char), ':' ∉ l →
      (pre ++ l :: post).foldl extractStep m = (pre ++ post).foldl extractStep m) := by
  refine ⟨?_, ?_, ?_⟩
  · intro line k v
    constructor
    · exact splitFirstColon_eq_some line k v
    · rintro ⟨rfl, hk⟩
      exact splitFirstColon_append k v hk
  · intro m k v hk
    rw [extractStep, splitFirstColon_append k v hk]
    exact alookup_dictInsert_self m (pyStrip k) (pyStrip v)
  · intro pre post m l hl
    rw [List.foldl_append, List.foldl_append, List.foldl_cons,
      extractStep, splitFirstColon_eq_none l hl]

/-- Witness for C5 at the line `K: V`: the binding `K ↦ V` is produced
(the raw value ` V` strips to `V`), and the colon-free line `abc`
contributes nothing to a fold. -/
theorem claim_C5_witness :
    (':' ∉ "K".toList ∧
      alookup (extractStep [] ("K".toList ++ ':' :: " V".toList))
        (pyStrip "K".toList) = some (pyStrip " V".toList) ∧
      pyStrip "K".toList = "K".toList ∧ pyStrip " V".toList = "V".toList) ∧
    (':' ∉ "abc".toList ∧
      (["x: y".toList] ++ "abc".toList :: []).foldl extractStep [] =
        (["x: y".toList] ++ ([] : List (List Char))).foldl extractStep []) :=
  ⟨⟨by decide, claim_C5.2.1 [] "K".toList " V".toList (by decide),
      by decide, by decide⟩,
    by decide, claim_C5.2.2 ["x: y".toList] [] [] "abc".toList (by decide)⟩

/-- C10: when the same stripped key appears on several colon-containing
lines of the log, the parsed metadata maps it to the stripped value of the
last such line — later lines overwrite earlier ones. -/
theorem claim_C10 (content line : List Char) (pre post : List (List Char))
    (k v : List Char)
    (hsplit : splitLinesCL content = pre ++ line :: post)
    (hline : splitFirstColon line = some (k, v))
    (hpost : ∀ l ∈ post, lineKey l ≠ some (pyStrip k)) :
    alookup (extract_ioc_metadata content) (pyStrip k) = some (pyStrip v) := by
  rw [extract_ioc_metadata, hsplit, List.foldl_append, List.foldl_cons,
    alookup_foldl_extractStep post _ _ hpost, extractStep, hline]
  exact alookup_dictInsert_self _ _ _

/-- Witness for C10: in the two-line log `A: 1\nA: 2` the key `A` is bound
to `2`, the value of the later line. -/
theorem claim_C10_witness :
    splitLinesCL "A: 1\nA: 2".toList = ["A: 1".toList] ++ "A: 2".toList :: [] ∧
    splitFirstColon "A: 2".toList = some ("A".toList, " 2".toList) ∧
    alookup (extract_ioc_metadata "A: 1\nA: 2".toList)
      (pyStrip "A".toList) = some (pyStrip " 2".toList) ∧
    pyStrip " 2".toList = "2".toList :=
  ⟨by decide, by decide,
    claim_C10 "A: 1\nA: 2".toList "A: 2".toList ["A: 1".toList] []
      "A".toList " 2".toList (by decide) (by decide) (by decide),
    by decide⟩

/-- C3 fails on the code as stated: with a configuration whose
`epicsConfiguration.iocs` list is empty, the directory `dev1` is not among
the (zero) configured names, yet `if allowed_iocs:` is false on an empty
list, so no filtering happens and `dev1.md` is still written. -/
theorem claim_C3_counterexample :
    allowedIocNames [("epicsConfiguration", Value.dict [("iocs", Value.list [])])] =
      some [] ∧
    processedDirs ["dev1"] (some []) = ["dev1"] ∧
    deviceOutputFiles ["dev1"] (some []) = ["dev1.md"] :=
  ⟨rfl, rfl, rfl⟩

/-- C3 amended: when a configuration is given and its
`epicsConfiguration.iocs` list is non-empty, exactly the device
directories whose names match a configured `name` are processed, and a
directory matching none of them gets no output file; when the configured
list is empty no filtering happens; when no configuration path is given,
all device directories are processed. -/
theorem claim_C3_amended (iocDirs : List String)
    (values : List (String × Value)) (names : List Value)
    (hnames : allowedIocNames values = some names) (hne : names ≠ []) :
    (processedDirs iocDirs (some names) =
      iocDirs.filter (fun d => names.any (fun v => pyEqStr v d))) ∧
    (∀ d ∈ iocDirs, (∀ v ∈ names, pyEqStr v d = false) →
      d ++ ".md" ∉ deviceOutputFiles iocDirs (some names)) ∧
    processedDirs iocDirs none = iocDirs := by
  have hfe : names.isEmpty = false := by
    cases names with
    | nil => exact absurd rfl hne
    | cons a l => rfl
  refine ⟨by rw [processedDirs, hfe]; rfl, ?_, rfl⟩
  intro d _ hall hmem
  rw [deviceOutputFiles] at hmem
  obtain ⟨n, hn, heq⟩ := List.mem_map.mp hmem
  have hnd : n = d := by
    have h2 : n.data ++ ".md".data = d.data ++ ".md".data := by
      have h3 := congrArg String.data heq
      simpa [String.data_append] using h3
    exact String.ext (List.append_cancel_right h2)
  subst hnd
  simp only [processedDirs, hfe, Bool.false_eq_true, if_false,
    List.mem_filter] at hn
  have hany := hn.2
  rw [List.any_eq_true] at hany
  obtain ⟨v, hv, hveq⟩ := hany
  rw [hall v hv] at hveq
  exact Bool.false_ne_true hveq

/-- Witness for C3's amended claim: with the single configured name `d1`,
out of the directories `d1` and `d2` only `d1` is processed and `d2.md`
is not among the written files. -/
theorem claim_C3_amended_witness :
    allowedIocNames
      [("epicsConfiguration", Value.dict
        [("iocs", Value.list [Value.dict [("name", Value.str "d1")]])])] =
      some [Value.str "d1"] ∧
    processedDirs ["d1", "d2"] (some [Value.str "d1"]) =
      List.filter (fun d => [Value.str "d1"].any (fun v => pyEqStr v d))
        ["d1", "d2"] ∧
    "d2" ++ ".md" ∉ deviceOutputFiles ["d1", "d2"] (some [Value.str "d1"]) := by
  have h := claim_C3_amended ["d1", "d2"]
    [("epicsConfiguration", Value.dict
      [("iocs", Value.list [Value.dict [("name", Value.str "d1")]])])]
    [Value.str "d1"] rfl (by simp)
  exact ⟨rfl, h.1, h.2.1 "d2" (by simp) (by decide)⟩

/-! ## Service qualification and URL lemmas -/

/-- Whenever the source's qualification test (line 41) completes without
error, its outcome agrees with the specification's qualification rule. -/
theorem svcQualifies_eq_claim (cfg : List (String × Value)) (q : Bool)
    (h : svcQualifies cfg = some q) :
    q = qualifiesClaimC2 (Value.dict cfg) := by
  rw [svcQualifies] at h
  match hh : svcHasIngress cfg with
  | none => rw [hh] at h; simp at h
  | some hi =>
    rw [hh] at h
    simp only [Option.bind_eq_bind, Option.some_bind, Option.some.injEq] at h
    subst h
    rw [svcHasIngress] at hh
    by_cases he : (pyGet cfg "enable_ingress" Value.null).truthy
    · rw [if_pos he] at hh
      simp only [Option.some.injEq] at hh
      subst hh
      simp [qualifiesClaimC2, he]
    · rw [if_neg he] at hh
      have he' : (pyGet cfg "enable_ingress" Value.null).truthy = false := by
        cases hx : (pyGet cfg "enable_ingress" Value.null).truthy with
        | true => exact absurd hx he
        | false => rfl
      cases hv : alookup cfg "ingress" with
      | none =>
        simp only [pyGet, hv, Option.getD_none, asDict, Option.bind_eq_bind,
          Option.some_bind, Option.some.injEq] at hh
        subst hh
        simp only [qualifiesClaimC2]
        rw [he', hv]
        simp [pyGet, alookup, Value.truthy]
      | some v =>
        cases v with
        | dict ingr =>
          simp only [pyGet, hv, Option.getD_some, asDict, Option.bind_eq_bind,
            Option.some_bind, Option.some.injEq] at hh
          subst hh
          simp only [qualifiesClaimC2]
          rw [he', hv]
          simp [pyGet]
        | null => simp [pyGet, hv, asDict] at hh
        | bool b => simp [pyGet, hv, asDict] at hh
        | int n => simp [pyGet, hv, asDict] at hh
        | str s => simp [pyGet, hv, asDict] at hh
        | list xs => simp [pyGet, hv, asDict] at hh

/-- Whenever the source's URL computation (lines 43-52) completes without
error, it returns exactly the URL the specification describes. -/
theorem svcUrl_eq_claim (values : List (String × Value)) (name : String)
    (cfg : List (String × Value)) (u : String)
    (h : svcUrl values name cfg = some u) :
    u = urlClaimC1 values name cfg := by
  rw [svcUrl] at h
  rw [urlClaimC1]
  by_cases hp : containsKey cfg "path"
  · rw [if_pos hp] at h
    cases hal : alookup cfg "path" with
    | none => rw [containsKey, hal] at hp; simp at hp
    | some v =>
      cases v with
      | str p =>
        rw [hal] at h
        simp only [Option.some.injEq] at h
        exact h.symm
      | null => rw [hal] at h; simp at h
      | bool b => rw [hal] at h; simp at h
      | int n => rw [hal] at h; simp at h
      | list xs => rw [hal] at h; simp at h
      | dict kvs => rw [hal] at h; simp at h
  · rw [if_neg hp] at h
    simp only [Option.some.injEq] at h
    cases hal : alookup cfg "path" with
    | none => exact h.symm
    | some v => exfalso; rw [containsKey, hal] at hp; simp at hp

/-- The names of the produced service entries are exactly the names of the
qualifying services, in order. -/
theorem processServices_names (values : List (String × Value))
    (svcList : List (String × Value)) (out : List ServiceEntry)
    (h : processServices values svcList = some out) :
    out.map (fun e => e.name) =
      (svcList.filter (fun p => qualifiesClaimC2 p.2)).map (fun p => p.1) := by
  induction svcList generalizing out with
  | nil =>
    simp only [processServices, Option.some.injEq] at h
    subst h
    rfl
  | cons p rest ih =>
    obtain ⟨name, cfgV⟩ := p
    cases cfgV with
    | null => rw [processServices] at h; simp [asDict] at h
    | bool b => rw [processServices] at h; simp [asDict] at h
    | int n => rw [processServices] at h; simp [asDict] at h
    | str s => rw [processServices] at h; simp [asDict] at h
    | list xs => rw [processServices] at h; simp [asDict] at h
    | dict cfg =>
      rw [processServices] at h
      simp only [asDict, Option.bind_eq_bind, Option.some_bind] at h
      match hq : svcQualifies cfg with
      | none => rw [hq] at h; simp at h
      | some q =>
        rw [hq] at h
        simp only [Option.some_bind] at h
        have hqc := svcQualifies_eq_claim cfg q hq
        cases q with
        | true =>
          rw [if_pos rfl] at h
          match hu : svcUrl values name cfg with
          | none => rw [hu] at h; simp at h
          | some url =>
            rw [hu] at h
            simp only [Option.some_bind] at h
            match hr : processServices values rest with
            | none => rw [hr] at h; simp at h
            | some restOut =>
              rw [hr] at h
              simp only [Option.some_bind, Option.some.injEq] at h
              subst h
              simp only [List.filter_cons, ← hqc]
              simp [ih restOut hr]
        | false =>
          rw [if_neg (by simp)] at h
          simp only [List.filter_cons, ← hqc]
          simp [ih out h]

/-- When a monadic map over the service entries succeeds and each produced
pair's first component is the entry's name with `.md` appended, the file
names of the result are exactly the entry names with `.md` appended. -/
theorem mapM_fst_of (f : ServiceEntry → Option (String × String))
    (hf : ∀ e b, f e = some b → b.1 = e.name ++ ".md") :
    ∀ (svcs : List ServiceEntry) (pages : List (String × String)),
      svcs.mapM f = some pages →
      pages.map (fun q => q.1) = svcs.map (fun e => e.name ++ ".md") := by
  intro svcs
  induction svcs with
  | nil =>
    intro pages h
    rw [List.mapM_nil] at h
    simp only [Option.pure_def, Option.some.injEq] at h
    subst h
    rfl
  | cons e rest ihp =>
    intro pages h
    rw [List.mapM_cons] at h
    match hfe : f e with
    | none => rw [hfe] at h; simp at h
    | some b =>
      rw [hfe] at h
      simp only [Option.bind_eq_bind, Option.some_bind] at h
      match hrest : rest.mapM f with
      | none => rw [hrest] at h; simp at h
      | some prest =>
        rw [hrest] at h
        simp only [Option.some_bind, Option.pure_def, Option.some.injEq] at h
        subst h
        simp [ihp prest hrest, hf e b hfe]

/-- C2: a configured service qualifies for page generation exactly when it
has a truthy `enable_ingress` flag, a nested `ingress` object with a
truthy `enabled` flag, or a `loadbalancer` key; the produced entries are
exactly the qualifying services, and a non-qualifying service (its name
unique in the map) gets no output file. -/
theorem claim_C2 (values epicsCfg svcList : List (String × Value))
    (out : List ServiceEntry)
    (hcfg : asDict (pyGet values "epicsConfiguration" (Value.dict [])) =
      some epicsCfg)
    (hsvcs : asDict (pyGet epicsCfg "services" (Value.dict [])) = some svcList)
    (hload : load_services_with_ingress values = some out) :
    (out.map (fun e => e.name) =
      (svcList.filter (fun p => qualifiesClaimC2 p.2)).map (fun p => p.1)) ∧
    (∀ p ∈ svcList, qualifiesClaimC2 p.2 = false →
      (svcList.map (fun q => q.1)).Nodup →
      ∀ date pages, servicePages values date = some pages →
        p.1 ++ ".md" ∉ pages.map (fun q => q.1)) := by
  rw [load_services_with_ingress, hcfg] at hload
  simp only [Option.bind_eq_bind, Option.some_bind] at hload
  rw [hsvcs] at hload
  simp only [Option.some_bind] at hload
  have hnames := processServices_names values svcList out hload
  refine ⟨hnames, ?_⟩
  intro p hp hqual hnodup date pages hpages
  rw [servicePages, load_services_with_ingress, hcfg] at hpages
  simp only [Option.bind_eq_bind, Option.some_bind] at hpages
  rw [hsvcs] at hpages
  simp only [Option.some_bind] at hpages
  rw [hload] at hpages
  simp only [Option.some_bind] at hpages
  have hfst : pages.map (fun q => q.1) = out.map (fun e => e.name ++ ".md") := by
    refine mapM_fst_of _ ?_ out pages hpages
    intro e b hb
    match hci : serviceConnectionInfo e.config e.url with
    | none => rw [hci] at hb; simp at hb
    | some ci =>
      rw [hci] at hb
      simp only [Option.bind_eq_bind, Option.some_bind, Option.some.injEq] at hb
      subst hb
      rfl
  rw [hfst]
  intro hmem
  obtain ⟨e, he, heq⟩ := List.mem_map.mp hmem
  have hen : e.name = p.1 := by
    have h2 := congrArg String.data heq
    simp only [String.data_append] at h2
    exact String.ext (List.append_cancel_right h2)
  have hmm : e.name ∈ out.map (fun e => e.name) := List.mem_map_of_mem _ he
  rw [hnames, hen] at hmm
  obtain ⟨p', hp', hpeq⟩ := List.mem_map.mp hmm
  have hmf := List.mem_filter.mp hp'
  have hpp : p' = p := by
    have := List.inj_on_of_nodup_map hnodup hmf.1 hp hpeq
    exact this
  rw [hpp] at hmf
  rw [hqual] at hmf
  exact Bool.false_ne_true hmf.2

/-- Witness for C2 on the worked example: the produced entries are `svc`
and `lbsvc` (the qualifying services) and `nosvc.md` is not among the
written service files. -/
theorem claim_C2_witness :
    (exEntries.map (fun e => e.name) =
      (exSvcMap.filter (fun p => qualifiesClaimC2 p.2)).map (fun p => p.1)) ∧
    ("nosvc" ++ ".md") ∉ exPages.map (fun q => q.1) := by
  have h := claim_C2 exValues [("services", Value.dict exSvcMap)] exSvcMap
    exEntries rfl rfl rfl
  exact ⟨h.1, h.2 ("nosvc", Value.dict exOffCfg) (by simp [exSvcMap]) rfl
    (by decide) "D" exPages rfl⟩

/-- C1: every entry produced by `load_services_with_ingress` carries the
URL the specification describes: `http://<loadbalancer>` when a
load-balancer address is present, otherwise
`http://<beamline>-<name>.<namespace>` (empty strings for absent fields),
with a `path` field appended verbatim in either case. -/
theorem claim_C1 (values svcList : List (String × Value))
    (out : List ServiceEntry)
    (h : processServices values svcList = some out) :
    ∀ e ∈ out, e.url = urlClaimC1 values e.name e.config := by
  induction svcList generalizing out with
  | nil =>
    simp only [processServices, Option.some.injEq] at h
    subst h
    intro e he
    simp at he
  | cons p rest ih =>
    obtain ⟨name, cfgV⟩ := p
    cases cfgV with
    | null => rw [processServices] at h; simp [asDict] at h
    | bool b => rw [processServices] at h; simp [asDict] at h
    | int n => rw [processServices] at h; simp [asDict] at h
    | str s => rw [processServices] at h; simp [asDict] at h
    | list xs => rw [processServices] at h; simp [asDict] at h
    | dict cfg =>
      rw [processServices] at h
      simp only [asDict, Option.bind_eq_bind, Option.some_bind] at h
      match hq : svcQualifies cfg with
      | none => rw [hq] at h; simp at h
      | some q =>
        rw [hq] at h
        simp only [Option.some_bind] at h
        cases q with
        | true =>
          rw [if_pos rfl] at h
          match hu : svcUrl values name cfg with
          | none => rw [hu] at h; simp at h
          | some url =>
            rw [hu] at h
            simp only [Option.some_bind] at h
            match hr : processServices values rest with
            | none => rw [hr] at h; simp at h
            | some restOut =>
              rw [hr] at h
              simp only [Option.some_bind, Option.some.injEq] at h
              subst h
              intro e he
              rcases List.mem_cons.mp he with rfl | hmem
              · exact svcUrl_eq_claim values name cfg url hu
              · exact ih restOut hr e hmem
        | false =>
          rw [if_neg (by simp)] at h
          exact ih out h

/-- Witness for C1 on the worked example: the `svc` entry (ingress
enabled, `path: /ui`, no load balancer) gets the URL
`http://b1-svc.ns/ui`, matching the specification's rule. -/
theorem claim_C1_witness :
    processServices exValues exSvcMap = some exEntries ∧
    ({ name := "svc", config := exSvcCfg, url := "http://b1-svc.ns/ui" } :
      ServiceEntry).url = urlClaimC1 exValues "svc" exSvcCfg ∧
    urlClaimC1 exValues "svc" exSvcCfg = "http://b1-svc.ns/ui" :=
  ⟨rfl,
    claim_C1 exValues exSvcMap exEntries rfl _ (by simp [exEntries]),
    rfl⟩

/-! ## Line-counting lemmas for the PV count -/

/-- Prepending a whitespace character never changes the number of
non-blank lines. -/
theorem countNB_cons_ws (c : Char) (s : List Char) (h : pyIsSpace c = true) :
    countNB (c :: s) = countNB s := by
  by_cases hc : c = '\n'
  · subst hc
    simp [countNB, splitLinesCL, splitLinesP, lineNonblank, List.countP_cons]
  · simp [countNB, splitLinesCL, splitLinesP, hc, List.countP_cons,
      lineNonblank, h]

/-- Dropping leading whitespace never changes the number of non-blank
lines. -/
theorem countNB_dropWhile (s : List Char) :
    countNB (s.dropWhile pyIsSpace) = countNB s := by
  induction s with
  | nil => rfl
  | cons c cs ih =>
    by_cases h : pyIsSpace c = true
    · rw [List.dropWhile_cons, if_pos h, ih, countNB_cons_ws c cs h]
    · rw [List.dropWhile_cons, if_neg h]

/-- The non-blank-line count split into the first line's contribution and
the rest. -/
theorem countNB_head_tail (y : List Char) :
    countNB y = (splitLinesP y).2.countP (fun s => lineNonblank s) +
      (if lineNonblank (splitLinesP y).1 then 1 else 0) := by
  simp [countNB, splitLinesCL, List.countP_cons]

/-- Prepending a non-whitespace character always makes the first line
count. -/
theorem countNB_cons_nonws (c : Char) (y : List Char) (hc : c ≠ '\n')
    (hw : pyIsSpace c = false) :
    countNB (c :: y) =
      (splitLinesP y).2.countP (fun s => lineNonblank s) + 1 := by
  simp [countNB, splitLinesCL, splitLinesP, hc, List.countP_cons,
    lineNonblank, hw]

/-- Unfolding lemma for `splitLinesP` on a cons cell. -/
theorem splitLinesP_cons (c : Char) (cs : List Char) :
    splitLinesP (c :: cs) =
      if c = '\n' then ([], (splitLinesP cs).1 :: (splitLinesP cs).2)
      else (c :: (splitLinesP cs).1, (splitLinesP cs).2) := by
  simp [splitLinesP]

/-- Blankness of a line with one character prepended. -/
theorem lineNonblank_cons (c : Char) (l : List Char) :
    lineNonblank (c :: l) = (!pyIsSpace c || lineNonblank l) := by
  simp [lineNonblank]

/-- Dropping trailing whitespace changes neither the number of non-blank
lines nor the blankness of the first line. -/
theorem countNB_dropTrailingWs (x : List Char) :
    countNB (dropTrailingWs x) = countNB x ∧
    lineNonblank (splitLinesP (dropTrailingWs x)).1 =
      lineNonblank (splitLinesP x).1 := by
  induction x with
  | nil => exact ⟨rfl, rfl⟩
  | cons c cs ih =>
    obtain ⟨ih1, ih2⟩ := ih
    simp only [dropTrailingWs]
    by_cases hcond : ((dropTrailingWs cs).isEmpty && pyIsSpace c) = true
    · rw [if_pos hcond]
      have hpair := hcond
      rw [Bool.and_eq_true] at hpair
      obtain ⟨hce, hws⟩ := hpair
      have hdt : dropTrailingWs cs = [] := by
        cases hx : dropTrailingWs cs with
        | nil => rfl
        | cons a l => rw [hx] at hce; simp at hce
      rw [hdt] at ih1 ih2
      constructor
      · rw [countNB_cons_ws c cs hws, ← ih1]
      · by_cases hc : c = '\n'
        · subst hc
          rw [splitLinesP_cons, if_pos rfl]
          rfl
        · rw [splitLinesP_cons, if_neg hc, lineNonblank_cons, hws]
          simp only [Bool.not_true, Bool.false_or]
          exact ih2
    · rw [if_neg hcond]
      constructor
      · by_cases hws : pyIsSpace c = true
        · rw [countNB_cons_ws c _ hws, countNB_cons_ws c cs hws, ih1]
        · have hw : pyIsSpace c = false := by
            cases hx : pyIsSpace c with
            | true => exact absurd hx hws
            | false => rfl
          have hnl : c ≠ '\n' := by
            intro hcc
            rw [hcc] at hw
            simp [pyIsSpace] at hw
          rw [countNB_cons_nonws c _ hnl hw, countNB_cons_nonws c cs hnl hw]
          have e1 := countNB_head_tail (dropTrailingWs cs)
          have e2 := countNB_head_tail cs
          rw [ih2] at e1
          rw [e2] at ih1
          rw [e1] at ih1
          omega
      · by_cases hc : c = '\n'
        · subst hc
          rw [splitLinesP_cons, splitLinesP_cons, if_pos rfl, if_pos rfl]
        · rw [splitLinesP_cons, splitLinesP_cons, if_neg hc, if_neg hc,
            lineNonblank_cons, lineNonblank_cons, ih2]

/-- The result of `rstrip` is empty exactly when the whole text is
whitespace. -/
theorem dropTrailingWs_isEmpty (x : List Char) :
    (dropTrailingWs x).isEmpty = x.all pyIsSpace := by
  induction x with
  | nil => rfl
  | cons c cs ih =>
    simp only [dropTrailingWs]
    by_cases hcond : ((dropTrailingWs cs).isEmpty && pyIsSpace c) = true
    · rw [if_pos hcond]
      have hpair := hcond
      rw [Bool.and_eq_true] at hpair
      obtain ⟨hce, hws⟩ := hpair
      rw [ih] at hce
      simp [List.all_cons, hws, hce]
    · rw [if_neg hcond]
      have hne : (c :: dropTrailingWs cs).isEmpty = false := rfl
      rw [hne, List.all_cons, ← ih]
      cases hpc : pyIsSpace c <;>
        cases hde : (dropTrailingWs cs).isEmpty <;> simp_all

/-- Dropping leading whitespace does not change whether the whole text is
whitespace. -/
theorem all_ws_dropWhile (l : List Char) :
    (l.dropWhile pyIsSpace).all pyIsSpace = l.all pyIsSpace := by
  induction l with
  | nil => rfl
  | cons c cs ih =>
    by_cases h : pyIsSpace c = true
    · simp [List.dropWhile_cons, h, ih]
    · simp [List.dropWhile_cons, h]

/-- A line strips to the empty string exactly when it is blank. -/
theorem pyStrip_isEmpty (l : List Char) :
    (pyStrip l).isEmpty = !lineNonblank l := by
  rw [pyStrip, dropTrailingWs_isEmpty, all_ws_dropWhile, lineNonblank]
  induction l with
  | nil => rfl
  | cons c cs ih =>
    cases hpc : pyIsSpace c <;> simp [List.all_cons, List.any_cons, hpc, ih]

/-- The source's PV count equals the specification's count of non-blank
lines, on every text. -/
theorem pvCountOf_eq_countNB (content : List Char) :
    pvCountOf content = countNB content := by
  have h1 : pvCountOf content = countNB (pyStrip content) := by
    rw [pvCountOf, countNB, List.countP_eq_length_filter]
    congr 1
    apply List.filter_congr
    intro l _
    rw [pyStrip_isEmpty l, Bool.not_not]
  rw [h1, pyStrip, (countNB_dropTrailingWs _).1, countNB_dropWhile]

/-- C6: the PV count reported on a generated page equals the number of
lines of the PV-list file containing at least one non-whitespace
character; in particular the 3-line file `a\n\nb` with one blank line
yields count 2. -/
theorem claim_C6 :
    (∀ content : List Char, pvCountOf content = countNB content) ∧
    pvCountOf "a\n\nb".toList = 2 ∧
    pvCount ⟨none, none, none, some "a\n\nb"⟩ = 2 :=
  ⟨pvCountOf_eq_countNB, by decide, by decide⟩

/-! ## String-inequality helpers for page structure -/

/-- Two strings differ when a concrete prefix of one differs from the
corresponding prefix of the other. -/
theorem strNeOfTake (A x C : String) (n : Nat) (hna : n ≤ A.data.length)
    (h : A.data.take n ≠ C.data.take n) : A ++ x ≠ C := by
  intro he
  apply h
  have hd := congrArg String.data he
  rw [String.data_append] at hd
  rw [← hd, List.take_append_of_le_length hna]

/-- Variant of `strNeOfTake` with a variable part on both sides. -/
theorem strNeOfTake2 (A x C y : String) (n : Nat) (hna : n ≤ A.data.length)
    (hnc : n ≤ C.data.length) (h : A.data.take n ≠ C.data.take n) :
    A ++ x ≠ C ++ y := by
  intro he
  apply h
  have hd := congrArg String.data he
  rw [String.data_append, String.data_append] at hd
  rw [← List.take_append_of_le_length hna, hd,
    List.take_append_of_le_length hnc]

/-- Variant of `strNeOfTake` for a three-part left-hand side. -/
theorem strNeOfTake3 (A x B C : String) (n : Nat) (hna : n ≤ A.data.length)
    (h : A.data.take n ≠ C.data.take n) : A ++ x ++ B ≠ C := by
  rw [String.append_assoc]
  exact strNeOfTake A (x ++ B) C n hna h

/-- Variant of `strNeOfTake2` for three-part sides. -/
theorem strNeOfTake4 (A x B C y D : String) (n : Nat)
    (hna : n ≤ A.data.length) (hnc : n ≤ C.data.length)
    (h : A.data.take n ≠ C.data.take n) : A ++ x ++ B ≠ C ++ y ++ D := by
  rw [String.append_assoc, String.append_assoc]
  exact strNeOfTake2 A (x ++ B) C (y ++ D) n hna hnc h

/-- The YAML section is empty exactly when the YAML content is. -/
theorem yamlSection_ne_iff (d : DeviceDir) :
    yamlSection d ≠ "" ↔ yamlContent d ≠ "" := by
  by_cases h : yamlContent d = ""
  · simp [yamlSection, h]
  · rw [yamlSection, if_neg h]
    constructor
    · intro _; exact h
    · intro _
      exact strNeOfTake3 _ _ _ "" 1 (by decide) (by decide)

/-- The st.cmd section is empty exactly when the st.cmd content is. -/
theorem stcmdSection_ne_iff (d : DeviceDir) :
    stcmdSection d ≠ "" ↔ stcmdContent d ≠ "" := by
  by_cases h : stcmdContent d = ""
  · simp [stcmdSection, h]
  · rw [stcmdSection, if_neg h]
    constructor
    · intro _; exact h
    · intro _
      exact strNeOfTake3 _ _ _ "" 1 (by decide) (by decide)

/-- The PV section is empty exactly when the PV-list content is. -/
theorem pvlistSection_ne_iff (d : DeviceDir) :
    pvlistSection d ≠ "" ↔ pvlistContent d ≠ "" := by
  by_cases h : pvlistContent d = ""
  · simp [pvlistSection, h]
  · rw [pvlistSection, if_neg h]
    constructor
    · intro _; exact h
    · intro _
      intro he
      have := strNeOfTake "\n## Process Variables ("
        (toString (pvCount d) ++ (") \x7b#pvlist\x7d\n\n```text\n" ++
          (pvlistContent d ++ "\n```\n"))) "" 1 (by decide) (by decide)
      apply this
      rw [← he]
      simp [String.append_assoc]

/-- Membership in the navigation list, characterised link by link. -/
theorem mem_navLinks_iff (d : DeviceDir) (s : String) :
    s ∈ navLinks d ↔
      (iocAsset d ≠ "" ∧
        s = "- [IOC Asset Documentation](" ++ iocAsset d ++ ")") ∨
      s = "- [Start Log](#startlog)" ∨
      (yamlContent d ≠ "" ∧ s = "- [Configuration (YAML)](#yaml)") ∨
      (stcmdContent d ≠ "" ∧ s = "- [EPICS st.cmd](#stcmd)") ∨
      (pvlistContent d ≠ "" ∧
        s = "- [Process Variables (" ++ toString (pvCount d) ++ ")](#pvlist)") := by
  rw [navLinks]
  by_cases h1 : iocAsset d = "" <;> by_cases h2 : yamlContent d = "" <;>
    by_cases h3 : stcmdContent d = "" <;> by_cases h4 : pvlistContent d = "" <;>
    simp [h1, h2, h3, h4]

/-- C9: every generated device page has a Start Log section (present even
when its content is empty), and the Quick Navigation list holds the
start-log link always, the asset link exactly when the metadata's asset is
non-empty, and the YAML, st.cmd and PV links exactly when the
corresponding section of the body is non-empty. -/
theorem claim_C9 (d : DeviceDir) (iocName date iocDesc : String) :
    ("- [Start Log](#startlog)" ∈ navLinks d) ∧
    ((("- [IOC Asset Documentation](" ++ iocAsset d ++ ")") ∈ navLinks d) ↔
      iocAsset d ≠ "") ∧
    (("- [Configuration (YAML)](#yaml)" ∈ navLinks d) ↔ yamlSection d ≠ "") ∧
    (("- [EPICS st.cmd](#stcmd)" ∈ navLinks d) ↔ stcmdSection d ≠ "") ∧
    ((("- [Process Variables (" ++ toString (pvCount d) ++ ")](#pvlist)") ∈
        navLinks d) ↔ pvlistSection d ≠ "") ∧
    (∃ a b, deviceMd d iocName date iocDesc =
      a ++ "## Start Log \x7b#startlog\x7d" ++ b) := by
  refine ⟨?_, ?_, ?_, ?_, ?_, ?_⟩
  · exact (mem_navLinks_iff d _).mpr (Or.inr (Or.inl rfl))
  · rw [mem_navLinks_iff]
    constructor
    · rintro (⟨hne, _⟩ | hs | ⟨_, hs⟩ | ⟨_, hs⟩ | ⟨_, hs⟩)
      · exact hne
      · exact absurd hs (strNeOfTake3 _ _ _ _ 4 (by decide) (by decide))
      · exact absurd hs (strNeOfTake3 _ _ _ _ 4 (by decide) (by decide))
      · exact absurd hs (strNeOfTake3 _ _ _ _ 4 (by decide) (by decide))
      · exact absurd hs (strNeOfTake4 _ _ _ _ _ _ 4 (by decide) (by decide)
          (by decide))
    · intro hne
      exact Or.inl ⟨hne, rfl⟩
  · rw [mem_navLinks_iff, yamlSection_ne_iff]
    constructor
    · rintro (⟨_, hs⟩ | hs | ⟨hc, _⟩ | ⟨_, hs⟩ | ⟨_, hs⟩)
      · exact absurd hs.symm (strNeOfTake3 _ _ _ _ 4 (by decide) (by decide))
      · exact absurd hs (by decide)
      · exact hc
      · exact absurd hs (by decide)
      · exact absurd hs.symm (strNeOfTake3 _ _ _ _ 4 (by decide) (by decide))
    · intro h
      exact Or.inr (Or.inr (Or.inl ⟨h, rfl⟩))
  · rw [mem_navLinks_iff, stcmdSection_ne_iff]
    constructor
    · rintro (⟨_, hs⟩ | hs | ⟨_, hs⟩ | ⟨hc, _⟩ | ⟨_, hs⟩)
      · exact absurd hs.symm (strNeOfTake3 _ _ _ _ 4 (by decide) (by decide))
      · exact absurd hs (by decide)
      · exact absurd hs (by decide)
      · exact hc
      · exact absurd hs.symm (strNeOfTake3 _ _ _ _ 4 (by decide) (by decide))
    · intro h
      exact Or.inr (Or.inr (Or.inr (Or.inl ⟨h, rfl⟩)))
  · rw [mem_navLinks_iff, pvlistSection_ne_iff]
    constructor
    · rintro (⟨_, hs⟩ | hs | ⟨_, hs⟩ | ⟨_, hs⟩ | ⟨hc, _⟩)
      · exact absurd hs.symm (strNeOfTake4 _ _ _ _ _ _ 4 (by decide)
          (by decide) (by decide))
      · exact absurd hs (strNeOfTake3 _ _ _ _ 4 (by decide) (by decide))
      · exact absurd hs (strNeOfTake3 _ _ _ _ 4 (by decide) (by decide))
      · exact absurd hs (strNeOfTake3 _ _ _ _ 4 (by decide) (by decide))
      · exact hc
    · intro h
      exact Or.inr (Or.inr (Or.inr (Or.inr ⟨h, rfl⟩)))
  · refine ⟨"---\ntitle: \"" ++ iocName ++ "\"\nlinkTitle: \"" ++ iocName ++
      "\"\nweight: 10\ndevgroup: \"" ++ devGroup d ++ "\"\ndate: \"" ++ date ++
      "\"\n---\n\n## Quick Navigation\n\n" ++
      String.intercalate "\n" (navLinks d) ++ "\n\n",
      "\n\n```\n" ++ startLogContent d ++ "\n```\n" ++ descSection iocDesc ++
        yamlSection d ++ stcmdSection d ++ pvlistSection d ++ "\n", ?_⟩
    rw [deviceMd]
    have hm : ∀ X : String,
        ("\n\n## Start Log \x7b#startlog\x7d" : String) ++ ("\n\n```\n" ++ X) =
          "\n\n## Start Log \x7b#startlog\x7d\n\n```\n" ++ X := by
      intro X
      have hl : ("\n\n## Start Log \x7b#startlog\x7d" : String) ++ "\n\n```\n" =
          "\n\n## Start Log \x7b#startlog\x7d\n\n```\n" := by decide
      rw [← String.append_assoc, hl]
    simp [String.append_assoc, hm]

/-! ## Substring machinery for the service-page bodies -/

/-- An occurrence of `n` inside `a ++ b` lies inside `a`, inside `b`, or
spans the boundary: a non-empty suffix of `a` followed by a non-empty
chunk taken from the front of `b`. -/
theorem infix_append_cases {α : Type} (n a b : List α) (h : n <:+: a ++ b) :
    n <:+: a ∨ n <:+: b ∨
      ∃ a₂ b₁, a₂ ≠ [] ∧ b₁ ≠ [] ∧ n = a₂ ++ b₁ ∧ a₂ <:+ a ∧ b₁ <+: b := by
  obtain ⟨s, t, hst⟩ := h
  rw [List.append_assoc] at hst
  rcases List.append_eq_append_iff.mp hst with ⟨a', ha', hnt⟩ | ⟨c', hc', hb⟩
  · rcases List.append_eq_append_iff.mp hnt with ⟨m, hm1, hm2⟩ | ⟨m, hm1, hm2⟩
    · left
      exact ⟨s, m, by rw [ha', hm1, List.append_assoc]⟩
    · cases m with
      | nil =>
        left
        rw [List.append_nil] at hm1
        exact ⟨s, [], by rw [List.append_nil, ha', hm1]⟩
      | cons x xs =>
        cases a' with
        | nil =>
          right; left
          rw [List.nil_append] at hm1
          exact ⟨[], t, by rw [List.nil_append, hm2, hm1]⟩
        | cons y ys =>
          right; right
          exact ⟨y :: ys, x :: xs, by simp, by simp, hm1,
            ⟨s, ha'.symm⟩, ⟨t, hm2.symm⟩⟩
  · right; left
    exact ⟨c', t, by rw [List.append_assoc, ← hb]⟩

/-- A computable certificate that no non-empty suffix of `A` is a prefix
of `N`, used to rule out boundary-spanning occurrences. -/
theorem no_overlap_of_tails_all {α : Type} [DecidableEq α] (A N : List α)
    (h : A.tails.all (fun t => t.isEmpty || !(decide (t <+: N))) = true) :
    ∀ t, t <:+ A → t ≠ [] → ¬ t <+: N := by
  intro t ht htne hpre
  have hm := List.all_eq_true.mp h t ((List.mem_tails _ _).mpr ht)
  have h1 : t.isEmpty = false := by
    cases t with
    | nil => exact absurd rfl htne
    | cons c cs => rfl
  rw [h1, Bool.false_or] at hm
  simp at hm
  exact hm hpre

/-- `n` does not occur in `a ++ b` when it occurs in neither part and no
non-empty suffix of `a` is a prefix of `n`. -/
theorem not_infix_append (n a b : List Char)
    (ha : ¬ n <:+: a) (hb : ¬ n <:+: b)
    (hov : ∀ t, t <:+ a → t ≠ [] → ¬ t <+: n) :
    ¬ n <:+: (a ++ b) := by
  intro h
  rcases infix_append_cases n a b h with h1 | h1 | ⟨a₂, b₁, hne, _, heq, hsuf, _⟩
  · exact ha h1
  · exact hb h1
  · exact hov a₂ hsuf hne ⟨b₁, heq.symm⟩

/-- C4: for a qualifying service whose record has a load-balancer address
and no enabled ingress, the connection block is the plain connection-IP
line showing the address, it appears in the page body, and it contains no
"Service URL" heading and no markdown link (given the address string
itself smuggles in neither); for every other qualifying service the
connection block is a "Service URL" heading with a markdown link to the
computed URL, and it appears in the page body. -/
theorem claim_C4 (cfg : List (String × Value)) (url date name : String)
    (hi : Bool) (hing : svcHasIngress cfg = some hi) :
    ((containsKey cfg "loadbalancer" = true ∧ hi = false) →
      serviceConnectionInfo cfg url =
        some ("**Connection IP:** " ++
          pystr (pyGet cfg "loadbalancer" Value.null)) ∧
      (∃ a b, servicePage date name (serviceDesc cfg)
          ("**Connection IP:** " ++ pystr (pyGet cfg "loadbalancer" Value.null)) =
        a ++ ("**Connection IP:** " ++
          pystr (pyGet cfg "loadbalancer" Value.null)) ++ b) ∧
      (¬ ("## Service URL".data <:+:
          (pystr (pyGet cfg "loadbalancer" Value.null)).data) →
        ¬ ("## Service URL".data <:+:
          ("**Connection IP:** " ++
            pystr (pyGet cfg "loadbalancer" Value.null)).data)) ∧
      (¬ ("](".data <:+: (pystr (pyGet cfg "loadbalancer" Value.null)).data) →
        ¬ ("](".data <:+:
          ("**Connection IP:** " ++
            pystr (pyGet cfg "loadbalancer" Value.null)).data))) ∧
    ((containsKey cfg "loadbalancer" = false ∨ hi = true) →
      serviceConnectionInfo cfg url =
        some ("## Service URL\n\n[" ++ url ++ "](" ++ url ++ ")") ∧
      ∃ a b, servicePage date name (serviceDesc cfg)
          ("## Service URL\n\n[" ++ url ++ "](" ++ url ++ ")") =
        a ++ ("## Service URL\n\n[" ++ url ++ "](" ++ url ++ ")") ++ b) := by
  constructor
  · rintro ⟨hlb, hif⟩
    subst hif
    refine ⟨?_, ?_, ?_, ?_⟩
    · rw [serviceConnectionInfo, hing]
      simp [hlb]
    · refine ⟨"---\ntitle: \"" ++ name ++ "\"\nlinkTitle: \"" ++ name ++
        "\"\nweight: 10\ntype: docs\ndate: \"" ++ date ++ "\"\n---\n\n",
        "\n\n## Description\n\n" ++ serviceDesc cfg ++ "\n", ?_⟩
      rw [servicePage]
      simp [String.append_assoc]
    · intro hno
      rw [String.data_append]
      exact not_infix_append _ _ _ (by decide) hno
        (no_overlap_of_tails_all _ _ (by decide))
    · intro hno
      rw [String.data_append]
      exact not_infix_append _ _ _ (by decide) hno
        (no_overlap_of_tails_all _ _ (by decide))
  · intro hor
    constructor
    · rw [serviceConnectionInfo, hing]
      rcases hor with hlb | hit
      · simp [hlb]
      · subst hit
        simp
    · refine ⟨"---\ntitle: \"" ++ name ++ "\"\nlinkTitle: \"" ++ name ++
        "\"\nweight: 10\ntype: docs\ndate: \"" ++ date ++ "\"\n---\n\n",
        "\n\n## Description\n\n" ++ serviceDesc cfg ++ "\n", ?_⟩
      rw [servicePage]
      have hm : ∀ X : String,
          (")" : String) ++ ("\n\n## Description\n\n" ++ X) =
            ")\n\n## Description\n\n" ++ X := by
        intro X
        have hl : ((")" : String) ++ "\n\n## Description\n\n") =
            ")\n\n## Description\n\n" := by decide
        rw [← String.append_assoc, hl]
      simp [String.append_assoc, hm]

/-- Witness for C4: the load-balancer-only record `exLbCfg` yields the
plain line `**Connection IP:** 10.0.0.5` with no Service-URL heading and
no markdown link in it, and the ingress-enabled record `exSvcCfg` yields
the Service URL block for its computed URL. -/
theorem claim_C4_witness :
    (svcHasIngress exLbCfg = some false ∧
      containsKey exLbCfg "loadbalancer" = true ∧
      serviceConnectionInfo exLbCfg "http://10.0.0.5" =
        some ("**Connection IP:** " ++
          pystr (pyGet exLbCfg "loadbalancer" Value.null)) ∧
      "**Connection IP:** " ++ pystr (pyGet exLbCfg "loadbalancer" Value.null) =
        "**Connection IP:** 10.0.0.5" ∧
      ¬ ("## Service URL".data <:+:
        ("**Connection IP:** " ++
          pystr (pyGet exLbCfg "loadbalancer" Value.null)).data) ∧
      ¬ ("](".data <:+:
        ("**Connection IP:** " ++
          pystr (pyGet exLbCfg "loadbalancer" Value.null)).data)) ∧
    (svcHasIngress exSvcCfg = some true ∧
      serviceConnectionInfo exSvcCfg "http://b1-svc.ns/ui" =
        some ("## Service URL\n\n[" ++ "http://b1-svc.ns/ui" ++ "](" ++
          "http://b1-svc.ns/ui" ++ ")")) := by
  have hA := claim_C4 exLbCfg "http://10.0.0.5" "D" "lbsvc" false rfl
  have hB := claim_C4 exSvcCfg "http://b1-svc.ns/ui" "D" "svc" true rfl
  have h1 := hA.1 ⟨rfl, rfl⟩
  exact ⟨⟨rfl, rfl, h1.1, by decide, h1.2.2.1 (by decide), h1.2.2.2 (by decide)⟩,
    rfl, (hB.2 (Or.inr rfl)).1⟩

/-! ## Lemmas on the URL-substitution scanner -/

/-- A successful scheme match decomposes the text and is one of the two
scheme literals. -/
theorem matchScheme_some (l sch r : List Char)
    (h : matchScheme l = some (sch, r)) :
    sch ++ r = l ∧ (sch = https8 ∨ sch = http7) := by
  rw [matchScheme] at h
  by_cases h8 : https8.isPrefixOf l
  · rw [if_pos h8] at h
    simp only [Option.some.injEq, Prod.mk.injEq] at h
    obtain ⟨rfl, rfl⟩ := h
    refine ⟨?_, Or.inl rfl⟩
    have hp := List.isPrefixOf_iff_prefix.mp h8
    have ht : https8 = l.take 8 := List.prefix_iff_eq_take.mp hp
    calc https8 ++ l.drop 8 = l.take 8 ++ l.drop 8 := by rw [← ht]
      _ = l := List.take_append_drop 8 l
  · rw [if_neg h8] at h
    by_cases h7 : http7.isPrefixOf l
    · rw [if_pos h7] at h
      simp only [Option.some.injEq, Prod.mk.injEq] at h
      obtain ⟨rfl, rfl⟩ := h
      refine ⟨?_, Or.inr rfl⟩
      have hp := List.isPrefixOf_iff_prefix.mp h7
      have ht : http7 = l.take 7 := List.prefix_iff_eq_take.mp hp
      calc http7 ++ l.drop 7 = l.take 7 ++ l.drop 7 := by rw [← ht]
        _ = l := List.take_append_drop 7 l
    · rw [if_neg h7] at h
      simp at h

/-- A text with either scheme at its head matches. -/
theorem matchScheme_isSome_of_sch (x : List Char)
    (h : https8 <+: x ∨ http7 <+: x) : matchScheme x ≠ none := by
  rw [matchScheme]
  rcases h with h | h
  · rw [if_pos (List.isPrefixOf_iff_prefix.mpr h)]
    exact Option.some_ne_none _
  · by_cases h8 : https8.isPrefixOf x
    · rw [if_pos h8]
      exact Option.some_ne_none _
    · rw [if_neg h8, if_pos (List.isPrefixOf_iff_prefix.mpr h)]
      exact Option.some_ne_none _

/-- The regex scan consumes after a match: the rest is strictly shorter. -/
theorem tryMatchUrl_length (l m rest : List Char)
    (h : tryMatchUrl l = some (m, rest)) : rest.length < l.length := by
  rw [tryMatchUrl] at h
  match hms : matchScheme l with
  | none => rw [hms] at h; simp at h
  | some (sch, r) =>
    rw [hms] at h
    have h' : (if (r.takeWhile (fun c => !pyIsSpace c)).isEmpty then none
        else some (sch ++ r.takeWhile (fun c => !pyIsSpace c),
          r.dropWhile (fun c => !pyIsSpace c))) = some (m, rest) := h
    by_cases hb : (r.takeWhile (fun c => !pyIsSpace c)).isEmpty
    · rw [if_pos hb] at h'
      simp at h'
    · rw [if_neg hb] at h'
      simp only [Option.some.injEq, Prod.mk.injEq] at h'
      obtain ⟨_, hrest⟩ := h'
      obtain ⟨hsr, hsch⟩ := matchScheme_some l sch r hms
      have h1 : rest.length ≤ r.length := by
        rw [← hrest]
        exact List.Sublist.length_le (List.dropWhile_sublist _)
      have h2 : l.length = sch.length + r.length := by
        rw [← hsr, List.length_append]
      have h3 : 1 ≤ sch.length := by
        rcases hsch with rfl | rfl <;> decide
      omega

/-- One step of the fuelled scanner at a matching position. -/
theorem mkUrlsAux_cons_some (f : Nat) (c : Char) (cs u rest : List Char)
    (h : tryMatchUrl (c :: cs) = some (u, rest)) :
    mkUrlsAux (f + 1) (c :: cs) =
      '[' :: u ++ ']' :: '(' :: u ++ ')' :: mkUrlsAux f rest := by
  rw [mkUrlsAux, h]

/-- One step of the fuelled scanner at a non-matching position. -/
theorem mkUrlsAux_cons_none (f : Nat) (c : Char) (cs : List Char)
    (h : tryMatchUrl (c :: cs) = none) :
    mkUrlsAux (f + 1) (c :: cs) = c :: mkUrlsAux f cs := by
  rw [mkUrlsAux, h]

/-- The fuel of `mkUrlsAux` is irrelevant once it exceeds the text
length. -/
theorem mkUrlsAux_congr :
    ∀ (f₁ f₂ : Nat) (l : List Char), l.length < f₁ → l.length < f₂ →
      mkUrlsAux f₁ l = mkUrlsAux f₂ l := by
  intro f₁
  induction f₁ with
  | zero => intro f₂ l h1 _; exact absurd h1 (by omega)
  | succ n ih =>
    intro f₂ l h1 h2
    cases f₂ with
    | zero => exact absurd h2 (by omega)
    | succ m =>
      cases l with
      | nil => rfl
      | cons c cs =>
        rw [List.length_cons] at h1 h2
        match hm : tryMatchUrl (c :: cs) with
        | some (u, rest) =>
          have hlt := tryMatchUrl_length _ _ _ hm
          rw [List.length_cons] at hlt
          rw [mkUrlsAux_cons_some n c cs u rest hm,
            mkUrlsAux_cons_some m c cs u rest hm,
            ih m rest (by omega) (by omega)]
        | none =>
          rw [mkUrlsAux_cons_none n c cs hm, mkUrlsAux_cons_none m c cs hm,
            ih m cs (by omega) (by omega)]

/-- Unfolding `make_urls_clickable` at a matching position. -/
theorem make_urls_eq_some (l m rest : List Char)
    (h : tryMatchUrl l = some (m, rest)) :
    make_urls_clickable l =
      '[' :: m ++ ']' :: '(' :: m ++ ')' :: make_urls_clickable rest := by
  cases l with
  | nil => rw [show tryMatchUrl [] = none from rfl] at h; simp at h
  | cons c cs =>
    have hlt := tryMatchUrl_length _ _ _ h
    rw [List.length_cons] at hlt
    rw [make_urls_clickable, List.length_cons,
      mkUrlsAux_cons_some (cs.length + 1) c cs m rest h,
      mkUrlsAux_congr (cs.length + 1) (rest.length + 1) rest (by omega)
        (by omega)]
    rfl

/-- Unfolding `make_urls_clickable` at a non-matching position. -/
theorem make_urls_eq_none (c : Char) (cs : List Char)
    (h : tryMatchUrl (c :: cs) = none) :
    make_urls_clickable (c :: cs) = c :: make_urls_clickable cs := by
  rw [make_urls_clickable, List.length_cons,
    mkUrlsAux_cons_none (cs.length + 1) c cs h]
  rfl

/-- When no suffix of a non-empty `t` starts a scheme and the following
text starts with `h`, no scheme match starts anywhere inside `t`: a match
would put an `h` in the interior of a scheme literal. -/
theorem matchScheme_append_none (t u : List Char)
    (h : ∀ t', t' <:+ t → matchScheme t' = none) (htne : t ≠ [])
    (hu : u.head? = some 'h') : matchScheme (t ++ u) = none := by
  cases hms : matchScheme (t ++ u) with
  | none => rfl
  | some p =>
    exfalso
    obtain ⟨sch, r⟩ := p
    obtain ⟨hsr, hsch⟩ := matchScheme_some _ _ _ hms
    have hpre : sch <+: t ++ u := ⟨r, hsr⟩
    have htp : t <+: t ++ u := List.prefix_append t u
    rcases List.prefix_or_prefix_of_prefix hpre htp with hst | hts
    · refine matchScheme_isSome_of_sch t ?_ (h t (List.suffix_refl t))
      rcases hsch with rfl | rfl
      · exact Or.inl hst
      · exact Or.inr hst
    · obtain ⟨w, hw⟩ := hts
      cases w with
      | nil =>
        rw [List.append_nil] at hw
        refine matchScheme_isSome_of_sch t ?_ (h t (List.suffix_refl t))
        rcases hsch with rfl | rfl
        · exact Or.inl (hw ▸ List.prefix_refl _)
        · exact Or.inr (hw ▸ List.prefix_refl _)
      | cons x xs =>
        have hu' : x :: (xs ++ r) = u := by
          rw [← hw, List.append_assoc] at hsr
          have := List.append_cancel_left hsr
          rw [List.cons_append] at this
          exact this
        have hx : x = 'h' := by
          rw [← hu'] at hu
          simp at hu
          exact hu
        subst hx
        cases t with
        | nil => exact htne rfl
        | cons a t₂ =>
          rw [List.cons_append] at hw
          rcases hsch with rfl | rfl
          · have hw' : a :: (t₂ ++ 'h' :: xs) =
                'h' :: ['t', 't', 'p', 's', ':', '/', '/'] := hw
            injection hw' with h1 h2
            have hmem : 'h' ∈ t₂ ++ 'h' :: xs :=
              List.mem_append_right _ (List.mem_cons_self _ _)
            rw [h2] at hmem
            exact absurd hmem (by decide)
          · have hw' : a :: (t₂ ++ 'h' :: xs) =
                'h' :: ['t', 't', 'p', ':', '/', '/'] := hw
            injection hw' with h1 h2
            have hmem : 'h' ∈ t₂ ++ 'h' :: xs :=
              List.mem_append_right _ (List.mem_cons_self _ _)
            rw [h2] at hmem
            exact absurd hmem (by decide)

/-- Splitting `takeWhile`/`dropWhile` over an append whose left part
satisfies the predicate throughout and whose right part fails it at its
head. -/
theorem takeWhile_dropWhile_append {α : Type} (p : α → Bool) (a b : List α)
    (ha : ∀ c ∈ a, p c = true) (hb : ∀ c, b.head? = some c → p c = false) :
    (a ++ b).takeWhile p = a ∧ (a ++ b).dropWhile p = b := by
  induction a with
  | nil =>
    simp only [List.nil_append]
    cases b with
    | nil => exact ⟨rfl, rfl⟩
    | cons c bs =>
      have hc := hb c rfl
      constructor
      · rw [List.takeWhile_cons, hc]
        simp
      · rw [List.dropWhile_cons, hc]
        simp
  | cons x a' ih =>
    have hx := ha x (List.mem_cons_self _ _)
    obtain ⟨iht, ihd⟩ := ih (fun c hc => ha c (List.mem_cons_of_mem _ hc))
    constructor
    · rw [List.cons_append, List.takeWhile_cons, hx, iht]
      simp
    · rw [List.cons_append, List.dropWhile_cons, hx, ihd]
      simp

/-- A URL-shaped text starts with the character `h`. -/
theorem urlShaped_head (u : List Char) (hu : urlShaped u) :
    u.head? = some 'h' := by
  obtain ⟨_, hcase⟩ := hu
  rcases hcase with ⟨⟨w, hw⟩, _⟩ | ⟨⟨w, hw⟩, _⟩ <;> rw [← hw] <;> rfl

/-- At the start of a URL-shaped text followed by whitespace (or the end),
the pattern matches exactly the URL. -/
theorem tryMatchUrl_url (u post : List Char) (hu : urlShaped u)
    (hp : headSpace post) : tryMatchUrl (u ++ post) = some (u, post) := by
  obtain ⟨hns, hcase⟩ := hu
  have hall : ∀ k : Nat, ∀ c ∈ u.drop k, (fun c => !pyIsSpace c) c = true := by
    intro k c hc
    have : c ∈ u := List.drop_subset k u hc
    simp [hns c this]
  have hhead : ∀ c : Char, post.head? = some c →
      (fun c => !pyIsSpace c) c = false := by
    intro c hc
    simp [hp c hc]
  rcases hcase with ⟨h8, hlen⟩ | ⟨h7, hlen⟩
  · have h8' : https8.isPrefixOf (u ++ post) :=
      List.isPrefixOf_iff_prefix.mpr (h8.trans (List.prefix_append u post))
    have hd : (u ++ post).drop 8 = u.drop 8 ++ post := by
      rw [List.drop_append_eq_append_drop, Nat.sub_eq_zero_of_le (le_of_lt hlen),
        List.drop_zero]
    have hms : matchScheme (u ++ post) = some (https8, u.drop 8 ++ post) := by
      rw [matchScheme, if_pos h8', hd]
    obtain ⟨ht, hdw⟩ := takeWhile_dropWhile_append
      (fun c => !pyIsSpace c) (u.drop 8) post (hall 8) hhead
    have hne : (u.drop 8 ++ post).takeWhile (fun c => !pyIsSpace c) ≠ [] := by
      rw [ht]
      intro hnil
      have := congrArg List.length hnil
      rw [List.length_drop] at this
      simp at this
      omega
    rw [tryMatchUrl, hms]
    have h' : (if ((u.drop 8 ++ post).takeWhile (fun c => !pyIsSpace c)).isEmpty
        then (none : Option (List Char × List Char))
        else some (https8 ++ (u.drop 8 ++ post).takeWhile (fun c => !pyIsSpace c),
          (u.drop 8 ++ post).dropWhile (fun c => !pyIsSpace c))) =
        some (u, post) := by
      rw [if_neg (by rw [List.isEmpty_iff]; exact hne), ht, hdw]
      have hu8 : https8 ++ u.drop 8 = u := by
        have ht8 : https8 = u.take 8 := List.prefix_iff_eq_take.mp h8
        rw [ht8, List.take_append_drop]
      rw [hu8]
    exact h'
  · have h8' : ¬ https8.isPrefixOf (u ++ post) := by
      intro hc
      have hcp := List.isPrefixOf_iff_prefix.mp hc
      have ht8 : https8 = (u ++ post).take 8 := List.prefix_iff_eq_take.mp hcp
      have ht7 : http7 = u.take 7 := List.prefix_iff_eq_take.mp h7
      have h77 : (u ++ post).take 7 = u.take 7 := by
        rw [List.take_append_eq_append_take,
          Nat.sub_eq_zero_of_le (by omega : 7 ≤ u.length), List.take_zero,
          List.append_nil]
      have : https8.take 7 = http7 := by
        rw [ht8, List.take_take, ht7, show min 7 8 = 7 from rfl]
        exact h77
      exact absurd this (by decide)
    have h7' : http7.isPrefixOf (u ++ post) :=
      List.isPrefixOf_iff_prefix.mpr (h7.trans (List.prefix_append u post))
    have hd : (u ++ post).drop 7 = u.drop 7 ++ post := by
      rw [List.drop_append_eq_append_drop, Nat.sub_eq_zero_of_le (le_of_lt hlen),
        List.drop_zero]
    have hms : matchScheme (u ++ post) = some (http7, u.drop 7 ++ post) := by
      rw [matchScheme, if_neg h8', if_pos h7', hd]
    obtain ⟨ht, hdw⟩ := takeWhile_dropWhile_append
      (fun c => !pyIsSpace c) (u.drop 7) post (hall 7) hhead
    have hne : (u.drop 7 ++ post).takeWhile (fun c => !pyIsSpace c) ≠ [] := by
      rw [ht]
      intro hnil
      have := congrArg List.length hnil
      rw [List.length_drop] at this
      simp at this
      omega
    rw [tryMatchUrl, hms]
    have h' : (if ((u.drop 7 ++ post).takeWhile (fun c => !pyIsSpace c)).isEmpty
        then (none : Option (List Char × List Char))
        else some (http7 ++ (u.drop 7 ++ post).takeWhile (fun c => !pyIsSpace c),
          (u.drop 7 ++ post).dropWhile (fun c => !pyIsSpace c))) =
        some (u, post) := by
      rw [if_neg (by rw [List.isEmpty_iff]; exact hne), ht, hdw]
      have hu7 : http7 ++ u.drop 7 = u := by
        have ht7 : http7 = u.take 7 := List.prefix_iff_eq_take.mp h7
        rw [ht7, List.take_append_drop]
      rw [hu7]
    exact h'

/-- `schemeFreeP` follows from the computable scan of all suffixes. -/
theorem schemeFreeP_of_all_tails (l : List Char)
    (h : l.tails.all (fun t => (matchScheme t).isNone) = true) :
    schemeFreeP l := by
  intro t ht
  have hm := List.all_eq_true.mp h t ((List.mem_tails _ _).mpr ht)
  exact Option.isNone_iff_eq_none.mp hm

/-- On scheme-free text the substitution is the identity. -/
theorem make_urls_id_of_schemeFree (l : List Char) (h : schemeFreeP l) :
    make_urls_clickable l = l := by
  induction l with
  | nil => rfl
  | cons c cs ih =>
    have hms : matchScheme (c :: cs) = none := h (c :: cs) (List.suffix_refl _)
    have htm : tryMatchUrl (c :: cs) = none := by rw [tryMatchUrl, hms]
    rw [make_urls_eq_none c cs htm,
      ih (fun t ht => h t (ht.trans (List.suffix_cons c cs)))]

/-- The substitution rewrites the leftmost maximal URL and leaves the
scheme-free text before it untouched, continuing after the match. -/
theorem make_urls_decomp (pre u post : List Char) (hpre : schemeFreeP pre)
    (hu : urlShaped u) (hp : headSpace post) :
    make_urls_clickable (pre ++ u ++ post) =
      pre ++ ('[' :: u ++ ']' :: '(' :: u ++ [')']) ++
        make_urls_clickable post := by
  induction pre with
  | nil =>
    rw [List.nil_append, List.nil_append,
      make_urls_eq_some (u ++ post) u post (tryMatchUrl_url u post hu hp)]
    simp
  | cons c pre' ih =>
    have hpre' : schemeFreeP pre' := fun t ht =>
      hpre t (ht.trans (List.suffix_cons c pre'))
    have hhead : (u ++ post).head? = some 'h' := by
      have hh := urlShaped_head u hu
      cases u with
      | nil => simp at hh
      | cons a us =>
        rw [List.cons_append]
        simpa using hh
    have hms : matchScheme ((c :: pre') ++ (u ++ post)) = none := by
      apply matchScheme_append_none (c :: pre') (u ++ post)
        (fun t' ht' => hpre t' ht') (by simp) hhead
    rw [List.cons_append, ← List.append_assoc] at hms
    have htm : tryMatchUrl (c :: (pre' ++ u ++ post)) = none := by
      rw [tryMatchUrl, hms]
    rw [List.cons_append, List.cons_append,
      make_urls_eq_none c _ htm, ih hpre']
    simp

/-- C7: on every input the URL transform rewrites a maximal URL — a
scheme `http://` or `https://` followed by a non-empty run of
non-whitespace, preceded by scheme-free text and followed by whitespace or
the end — into `[url](url)`, leaving the other characters unchanged and
continuing after it; on the spec's example input it produces the expected
output. -/
theorem claim_C7 :
    (∀ pre u post, schemeFreeP pre → urlShaped u → headSpace post →
      make_urls_clickable (pre ++ u ++ post) =
        pre ++ ('[' :: u ++ ']' :: '(' :: u ++ [')']) ++
          make_urls_clickable post) ∧
    make_urls_clickable "see http://x.io/a for details".toList =
      "see [http://x.io/a](http://x.io/a) for details".toList :=
  ⟨fun pre u post h1 h2 h3 => make_urls_decomp pre u post h1 h2 h3, by decide⟩

/-- Witness for C7 on the spec's example, decomposed as scheme-free
prefix, URL, and whitespace-led remainder. -/
theorem claim_C7_witness :
    schemeFreeP "see ".toList ∧ urlShaped "http://x.io/a".toList ∧
    headSpace " for details".toList ∧
    make_urls_clickable
        ("see ".toList ++ "http://x.io/a".toList ++ " for details".toList) =
      "see ".toList ++
        ('[' :: "http://x.io/a".toList ++ ']' :: '(' ::
          "http://x.io/a".toList ++ [')']) ++
        make_urls_clickable " for details".toList := by
  have h1 : schemeFreeP "see ".toList := schemeFreeP_of_all_tails _ (by decide)
  have h2 : urlShaped "http://x.io/a".toList := by
    constructor
    · decide
    · right
      exact ⟨by decide, by decide⟩
  have h3 : headSpace " for details".toList := by
    intro c hc
    have hc' : some ' ' = some c := hc
    injection hc' with h
    rw [← h]
    rfl
  exact ⟨h1, h2, h3, claim_C7.1 _ _ _ h1 h2 h3⟩

/-- C8: on text with no occurrence of `http://` or `https://` the URL
transform is the identity, and hence idempotent. -/
theorem claim_C8 (l : List Char) (h : schemeFreeP l) :
    make_urls_clickable l = l ∧
    make_urls_clickable (make_urls_clickable l) = make_urls_clickable l := by
  have h1 := make_urls_id_of_schemeFree l h
  exact ⟨h1, by rw [h1, h1]⟩

/-- Witness for C8 on a URL-free text. -/
theorem claim_C8_witness :
    make_urls_clickable "no links here".toList = "no links here".toList ∧
    make_urls_clickable (make_urls_clickable "no links here".toList) =
      make_urls_clickable "no links here".toList :=
  claim_C8 _ (schemeFreeP_of_all_tails _ (by decide))

end IocInfo
